import Mathlib

/-! Shallow embedding of the terminal-capture module: a command-line
splitter, an execution processor, and a promise-chained operation queue
with a tick-based timing model. Strings are modelled as `List Char`. -/

/-- Whitespace characters removed by `trim` (JS `String.prototype.trim` on
the ASCII range). -/
def isWsChar (c : Char) : Bool :=
  c = ' ' || c = '\t' || c = '\r' || c = '\n' || c = '\x0b' || c = '\x0c'

/-- Embedding of JS `s.trim()`: remove whitespace from both ends. -/
def trimChars (l : List Char) : List Char :=
  (l.dropWhile isWsChar).rdropWhile isWsChar

/-- Embedding of JS `s.split('\n')`: cut the character list at every
newline; `n` newlines yield `n+1` (possibly empty) lines. -/
def splitNl : List Char → List (List Char)
  | [] => [[]]
  | '\n' :: rest => [] :: splitNl rest
  | c :: rest => (splitNl rest).modifyHead (c :: ·)

/-- Embedding of JS `line.split(/\|\||&&|;/)`: scanning left to right, cut
at every `||`, `&&` or `;` occurrence. -/
def splitSeps : List Char → List (List Char)
  | [] => [[]]
  | '|' :: '|' :: rest => [] :: splitSeps rest
  | '&' :: '&' :: rest => [] :: splitSeps rest
  | ';' :: rest => [] :: splitSeps rest
  | c :: rest => (splitSeps rest).modifyHead (c :: ·)

/-- Embedding of `splitCommands` (src/client/vscode/src/capture.ts): split
on newlines, split each line on shell separators, trim each fragment and
keep the non-empty ones, in order. -/
def splitCommands (commandLine : List Char) : List (List Char) :=
  (splitNl commandLine).flatMap (fun line =>
    ((splitSeps line).map trimChars).filter (fun trimmed => 0 < trimmed.length))

/-- Reference splitter for one line, following the spec's words (§4.1 step
2): split on any occurrence of the operators, here matched in the order
`;`, `&&`, `||`. -/
def splitSepsSpec : List Char → List (List Char)
  | [] => [[]]
  | ';' :: rest => [] :: splitSepsSpec rest
  | '&' :: '&' :: rest => [] :: splitSepsSpec rest
  | '|' :: '|' :: rest => [] :: splitSepsSpec rest
  | c :: rest => (splitSepsSpec rest).modifyHead (c :: ·)

/-- Reference algorithm following the spec's words (§4.1): split the input
on newline characters into lines, split each line on the operators, trim
each fragment, discard the ones empty after trimming, and concatenate
across lines preserving order. -/
def splitCommandsSpec (commandLine : List Char) : List (List Char) :=
  ((splitNl commandLine).map (fun line =>
    ((splitSepsSpec line).map trimChars).filter (fun t => t ≠ []))).flatten

/-- Character lists made only of separator operators (`||`, `&&`, `;`) and
whitespace. -/
def sepWsOnly : List Char → Bool
  | [] => true
  | '|' :: '|' :: rest => sepWsOnly rest
  | '&' :: '&' :: rest => sepWsOnly rest
  | ';' :: rest => sepWsOnly rest
  | c :: rest => isWsChar c && sepWsOnly rest

/-- Options record attached to a capture request. -/
structure CaptureOptions where
  context : Option (List Char)
  status : List Char
deriving DecidableEq, Repr

/-- A capture request: the split commands plus the options record. -/
structure CaptureRequest where
  commands : List (List Char)
  options : CaptureOptions
deriving DecidableEq, Repr

/-- Embedding of `processTerminalExecution`: skip empty/whitespace command
lines, apply the success-only filter, derive the status from the exit code
(`undefined` is `none`), and otherwise build the capture request. -/
def processTerminalExecution (commandLine : List Char) (exitCode : Option Int)
    (workspaceContext : Option (List Char)) (captureSuccessOnly : Bool) :
    Option CaptureRequest :=
  if commandLine.isEmpty || (trimChars commandLine).isEmpty then none
  else if captureSuccessOnly && exitCode != some 0 then none
  else
    let status := if exitCode = some 0 then "success".data else "failed".data
    some ⟨splitCommands commandLine, ⟨workspaceContext, status⟩⟩

/-- The status label the processor derives from an exit code. -/
def derivedStatus (exitCode : Option Int) : List Char :=
  if exitCode = some 0 then "success".data else "failed".data

/-! ### Timed promise model

A settled promise is abstracted by the tick at which it settles and
whether it fulfilled; an asynchronous thunk maps its start tick to the
timestamped side effects it performs, its settle tick and its outcome. -/

/-- A promise in the tick-based model: settle tick and outcome. -/
structure SPromise where
  t : Nat
  ok : Bool
deriving DecidableEq, Repr

/-- An asynchronous thunk: start tick ↦ (timestamped events, settle tick,
fulfilled?). -/
def AsyncOp (ε : Type) := Nat → List (Nat × ε) × Nat × Bool

/-- Semantics of `p.then(op)`: if `p` fulfilled, `op` starts at `p`'s
settle tick; if `p` rejected, `op` is skipped and the rejection passes
through. -/
def thenP {ε : Type} (p : SPromise) (op : AsyncOp ε) : SPromise × List (Nat × ε) :=
  if p.ok then
    let r := op p.t
    (⟨r.2.1, r.2.2⟩, r.1)
  else (p, [])

/-- Semantics of `p.catch(() => {})`: same settle tick, always fulfilled. -/
def catchP (p : SPromise) : SPromise :=
  ⟨p.t, true⟩

/-- State of an `OperationQueue`: the tail promise plus the log of
timestamped side effects performed so far. -/
structure QueueState (ε : Type) where
  queue : SPromise
  log : List (Nat × ε)
deriving DecidableEq

/-- Embedding of `OperationQueue.enqueue`:
`this.queue = this.queue.then(operation).catch(() => {})`. -/
def enqueue {ε : Type} (st : QueueState ε) (op : AsyncOp ε) : QueueState ε :=
  let r := thenP st.queue op
  ⟨catchP r.1, st.log ++ r.2⟩

/-- A fresh queue: `private queue: Promise<void> = Promise.resolve()`. -/
def initQueue (ε : Type) : QueueState ε :=
  ⟨⟨0, true⟩, []⟩

/-- A test operation in the style of the spec's ordering scenario: sleep
`dur` ticks, record `tag`, then resolve or reject. -/
structure OpSpec where
  dur : Nat
  tag : Nat
  fails : Bool
deriving DecidableEq, Repr

/-- The thunk described by an `OpSpec`: started at `s`, it records its tag
at tick `s + dur` and settles there, rejecting iff `fails`. -/
def sleepRecord (o : OpSpec) : AsyncOp Nat :=
  fun s => ([(s + o.dur, o.tag)], s + o.dur, !o.fails)

/-- Run a whole scenario: enqueue every operation on a fresh queue. -/
def runQueueOps (specs : List OpSpec) : QueueState Nat :=
  (specs.map sleepRecord).foldl enqueue (initQueue Nat)

/-- Settle ticks of chained operations: each operation starts at the
previous operation's settle tick and settles `dur` ticks later. -/
def settleTimes : Nat → List OpSpec → List Nat
  | _, [] => []
  | t, o :: os => (t + o.dur) :: settleTimes (t + o.dur) os

/-! ### Capture fan-out model -/

/-- How the external client behaves on one `addCommand` call: how long the
returned promise takes to settle and whether it fulfills. -/
structure SubmitBehavior where
  dur : Nat
  ok : Bool

/-- The external client, abstracted by the behavior of its `addCommand`
call on each argument triple. -/
def Client : Type :=
  List Char → List Char → CaptureOptions → SubmitBehavior

/-- One observable submission call `client.addCommand(cmd, desc, options)`. -/
structure Call where
  cmd : List Char
  desc : List Char
  opts : CaptureOptions
deriving DecidableEq

/-- Calling `client.addCommand` at tick `s`: the call itself is the event;
the returned promise settles after the client-determined duration. -/
def addCommand (cl : Client) (cmd desc : List Char) (o : CaptureOptions) (s : Nat) :
    SPromise × Call :=
  (⟨s + (cl cmd desc o).dur, (cl cmd desc o).ok⟩, ⟨cmd, desc, o⟩)

/-- Semantics of `Promise.allSettled`: settles once every promise has
settled, and always fulfills. -/
def allSettledP (ps : List SPromise) (s : Nat) : SPromise :=
  ⟨ps.foldl (fun m p => max m p.t) s, true⟩

/-- Embedding of `captureCommands`: fire `addCommand` once per command at
the start tick and await `Promise.allSettled` of the results. -/
def captureCommands (cl : Client) (commands : List (List Char)) (o : CaptureOptions) :
    AsyncOp Call :=
  fun s =>
    let subs := commands.map (fun cmd => addCommand cl cmd [] o s)
    (subs.map (fun pr => (s, pr.2)), (allSettledP (subs.map Prod.fst) s).t, true)

/-- Embedding of `queueCapture`: enqueue one operation that returns at once
when no client handle is present and otherwise runs `captureCommands`. -/
def queueCapture (st : QueueState Call) (client : Option Client) (result : CaptureRequest) :
    QueueState Call :=
  enqueue st (fun s =>
    match client with
    | none => ([], s, true)
    | some cl => captureCommands cl result.commands result.options s)


/-! ### Lemmas about trimming -/

theorem trimChars_trimChars (l : List Char) : trimChars (trimChars l) = trimChars l := by
  unfold trimChars
  have h1 : ((l.dropWhile isWsChar).rdropWhile isWsChar).dropWhile isWsChar
      = (l.dropWhile isWsChar).rdropWhile isWsChar := by
    rw [List.dropWhile_eq_self_iff]
    intro hl
    have hpre := List.rdropWhile_prefix isWsChar (l.dropWhile isWsChar)
    have hlen : 0 < (l.dropWhile isWsChar).length :=
      lt_of_lt_of_le hl hpre.length_le
    have hget := hpre.getElem hl
    have hhead := List.dropWhile_get_zero_not isWsChar l hlen
    simpa [List.get_eq_getElem, hget] using hhead
  rw [h1, List.rdropWhile_idempotent]

theorem trimChars_eq_nil_iff (l : List Char) :
    trimChars l = [] ↔ ∀ c ∈ l, isWsChar c := by
  unfold trimChars
  rw [List.rdropWhile_eq_nil_iff]
  constructor
  · intro h
    have h2 : (l.dropWhile isWsChar).dropWhile isWsChar = [] :=
      List.dropWhile_eq_nil_iff.mpr h
    rw [List.dropWhile_idempotent] at h2
    exact List.dropWhile_eq_nil_iff.mp h2
  · intro h
    have h2 : l.dropWhile isWsChar = [] := List.dropWhile_eq_nil_iff.mpr h
    simp [h2]

/-! ### Structural lemmas about the splitters -/

theorem splitNl_ne_nil (l : List Char) : splitNl l ≠ [] := by
  induction l using splitNl.induct <;> simp [splitNl, *]

theorem splitSeps_ne_nil (l : List Char) : splitSeps l ≠ [] := by
  induction l using splitSeps.induct <;> simp [splitSeps, *]

theorem splitSepsSpec_ne_nil (l : List Char) : splitSepsSpec l ≠ [] := by
  induction l using splitSepsSpec.induct <;> simp [splitSepsSpec, *]

theorem isWsChar_ne_sep {c : Char} (h : isWsChar c) : c ≠ '|' ∧ c ≠ '&' ∧ c ≠ ';' := by
  refine ⟨?_, ?_, ?_⟩ <;> rintro rfl <;> revert h <;> decide

theorem splitNl_cons_of_ne (c : Char) (r : List Char) (h : c ≠ '\n') :
    splitNl (c :: r) = (splitNl r).modifyHead (c :: ·) := by
  rw [splitNl.eq_def]
  split <;> simp_all

theorem splitSeps_cons_of_not (c : Char) (r : List Char)
    (h1 : c ≠ '|') (h2 : c ≠ '&') (h3 : c ≠ ';') :
    splitSeps (c :: r) = (splitSeps r).modifyHead (c :: ·) := by
  rw [splitSeps.eq_def]
  split <;> simp_all

theorem splitSepsSpec_cons_of_not (c : Char) (r : List Char)
    (h1 : c ≠ '|') (h2 : c ≠ '&') (h3 : c ≠ ';') :
    splitSepsSpec (c :: r) = (splitSepsSpec r).modifyHead (c :: ·) := by
  rw [splitSepsSpec.eq_def]
  split <;> simp_all

theorem sepWsOnly_cons_of_ws (c : Char) (r : List Char) (h : isWsChar c) :
    sepWsOnly (c :: r) = sepWsOnly r := by
  obtain ⟨h1, h2, h3⟩ := isWsChar_ne_sep h
  rw [sepWsOnly.eq_def]
  split <;> simp_all

theorem splitSeps_eq_spec (l : List Char) : splitSeps l = splitSepsSpec l := by
  induction l using splitSeps.induct with
  | case1 => rfl
  | case2 rest ih =>
      show [] :: splitSeps rest = splitSepsSpec ('|' :: '|' :: rest)
      rw [ih]; rfl
  | case3 rest ih =>
      show [] :: splitSeps rest = splitSepsSpec ('&' :: '&' :: rest)
      rw [ih]; rfl
  | case4 rest ih =>
      show [] :: splitSeps rest = splitSepsSpec (';' :: rest)
      rw [ih]; rfl
  | case5 c rest h1 h2 h3 ih =>
      have e1 : splitSeps (c :: rest) = (splitSeps rest).modifyHead (c :: ·) := by
        rw [splitSeps.eq_def]
        split
        · rename_i heq; exact absurd heq (by simp)
        · rename_i heq; injection heq with hc hr; exact (h1 _ hc hr).elim
        · rename_i heq; injection heq with hc hr; exact (h2 _ hc hr).elim
        · rename_i heq; injection heq with hc hr; exact (h3 hc).elim
        · rename_i heq; injection heq with hc hr; rw [hc, hr]
      have e2 : splitSepsSpec (c :: rest) = (splitSepsSpec rest).modifyHead (c :: ·) := by
        rw [splitSepsSpec.eq_def]
        split
        · rename_i heq; exact absurd heq (by simp)
        · rename_i heq; injection heq with hc hr; exact (h3 hc).elim
        · rename_i heq; injection heq with hc hr; exact (h2 _ hc hr).elim
        · rename_i heq; injection heq with hc hr; exact (h1 _ hc hr).elim
        · rename_i heq; injection heq with hc hr; rw [hc, hr]
      rw [e1, e2, ih]

theorem sepWsOnly_lines (l : List Char) (h : sepWsOnly l = true) :
    ∀ line ∈ splitNl l, sepWsOnly line = true := by
  induction l using sepWsOnly.induct with
  | case1 =>
      intro line hline
      simp [splitNl] at hline
      simp [hline, sepWsOnly]
  | case2 rest ih =>
      intro line hline
      replace h : sepWsOnly rest = true := h
      obtain ⟨l1, ls, hsp⟩ : ∃ l1 ls, splitNl rest = l1 :: ls := by
        cases hsp : splitNl rest with
        | nil => exact absurd hsp (splitNl_ne_nil rest)
        | cons a b => exact ⟨a, b, rfl⟩
      have e : splitNl ('|' :: '|' :: rest) = ('|' :: '|' :: l1) :: ls := by
        rw [splitNl_cons_of_ne _ _ (by decide), splitNl_cons_of_ne _ _ (by decide), hsp]
        rfl
      rw [e] at hline
      rcases List.mem_cons.mp hline with rfl | hline'
      · have : sepWsOnly l1 = true := ih h l1 (hsp ▸ List.mem_cons_self _ _)
        exact this
      · exact ih h line (hsp ▸ List.mem_cons_of_mem _ hline')
  | case3 rest ih =>
      intro line hline
      replace h : sepWsOnly rest = true := h
      obtain ⟨l1, ls, hsp⟩ : ∃ l1 ls, splitNl rest = l1 :: ls := by
        cases hsp : splitNl rest with
        | nil => exact absurd hsp (splitNl_ne_nil rest)
        | cons a b => exact ⟨a, b, rfl⟩
      have e : splitNl ('&' :: '&' :: rest) = ('&' :: '&' :: l1) :: ls := by
        rw [splitNl_cons_of_ne _ _ (by decide), splitNl_cons_of_ne _ _ (by decide), hsp]
        rfl
      rw [e] at hline
      rcases List.mem_cons.mp hline with rfl | hline'
      · exact ih h l1 (hsp ▸ List.mem_cons_self _ _)
      · exact ih h line (hsp ▸ List.mem_cons_of_mem _ hline')
  | case4 rest ih =>
      intro line hline
      replace h : sepWsOnly rest = true := h
      obtain ⟨l1, ls, hsp⟩ : ∃ l1 ls, splitNl rest = l1 :: ls := by
        cases hsp : splitNl rest with
        | nil => exact absurd hsp (splitNl_ne_nil rest)
        | cons a b => exact ⟨a, b, rfl⟩
      have e : splitNl (';' :: rest) = (';' :: l1) :: ls := by
        rw [splitNl_cons_of_ne _ _ (by decide), hsp]
        rfl
      rw [e] at hline
      rcases List.mem_cons.mp hline with rfl | hline'
      · exact ih h l1 (hsp ▸ List.mem_cons_self _ _)
      · exact ih h line (hsp ▸ List.mem_cons_of_mem _ hline')
  | case5 c rest h1 h2 h3 ih =>
      intro line hline
      have hcr : isWsChar c = true ∧ sepWsOnly rest = true := by
        rw [sepWsOnly.eq_def] at h
        revert h
        split
        · rename_i heq; exact absurd heq (by simp)
        · rename_i heq; injection heq with hc hr; exact (h1 _ hc hr).elim
        · rename_i heq; injection heq with hc hr; exact (h2 _ hc hr).elim
        · rename_i heq; injection heq with hc hr; exact (h3 hc).elim
        · rename_i heq; injection heq with hc hr
          intro h
          rw [← hc, ← hr] at h
          exact Bool.and_eq_true_iff.mp h
      obtain ⟨hwc, hrest⟩ := hcr
      by_cases hnl : c = '\n'
      · subst hnl
        rw [show splitNl ('\n' :: rest) = [] :: splitNl rest from rfl] at hline
        rcases List.mem_cons.mp hline with rfl | hline'
        · rfl
        · exact ih hrest line hline'
      · obtain ⟨l1, ls, hsp⟩ : ∃ l1 ls, splitNl rest = l1 :: ls := by
          cases hsp : splitNl rest with
          | nil => exact absurd hsp (splitNl_ne_nil rest)
          | cons a b => exact ⟨a, b, rfl⟩
        rw [splitNl_cons_of_ne _ _ hnl, hsp] at hline
        rcases List.mem_cons.mp hline with rfl | hline'
        · rw [sepWsOnly_cons_of_ws _ _ hwc]
          exact ih hrest l1 (hsp ▸ List.mem_cons_self _ _)
        · exact ih hrest line (hsp ▸ List.mem_cons_of_mem _ hline')

theorem sepWsOnly_frags (l : List Char) (h : sepWsOnly l = true) :
    ∀ f ∈ splitSeps l, ∀ c ∈ f, isWsChar c = true := by
  induction l using sepWsOnly.induct with
  | case1 =>
      intro f hf c hc
      simp [splitSeps] at hf
      subst hf
      simp at hc
  | case2 rest ih =>
      intro f hf c hc
      replace h : sepWsOnly rest = true := h
      rw [show splitSeps ('|' :: '|' :: rest) = [] :: splitSeps rest from rfl] at hf
      rcases List.mem_cons.mp hf with rfl | hf'
      · simp at hc
      · exact ih h f hf' c hc
  | case3 rest ih =>
      intro f hf c hc
      replace h : sepWsOnly rest = true := h
      rw [show splitSeps ('&' :: '&' :: rest) = [] :: splitSeps rest from rfl] at hf
      rcases List.mem_cons.mp hf with rfl | hf'
      · simp at hc
      · exact ih h f hf' c hc
  | case4 rest ih =>
      intro f hf c hc
      replace h : sepWsOnly rest = true := h
      rw [show splitSeps (';' :: rest) = [] :: splitSeps rest from rfl] at hf
      rcases List.mem_cons.mp hf with rfl | hf'
      · simp at hc
      · exact ih h f hf' c hc
  | case5 c rest h1 h2 h3 ih =>
      intro f hf c' hc'
      have hcr : isWsChar c = true ∧ sepWsOnly rest = true := by
        rw [sepWsOnly.eq_def] at h
        revert h
        split
        · rename_i heq; exact absurd heq (by simp)
        · rename_i heq; injection heq with hc hr; exact (h1 _ hc hr).elim
        · rename_i heq; injection heq with hc hr; exact (h2 _ hc hr).elim
        · rename_i heq; injection heq with hc hr; exact (h3 hc).elim
        · rename_i heq; injection heq with hc hr
          intro h
          rw [← hc, ← hr] at h
          exact Bool.and_eq_true_iff.mp h
      obtain ⟨hwc, hrest⟩ := hcr
      obtain ⟨n1, n2, n3⟩ := isWsChar_ne_sep hwc
      obtain ⟨f1, fs, hsp⟩ : ∃ f1 fs, splitSeps rest = f1 :: fs := by
        cases hsp : splitSeps rest with
        | nil => exact absurd hsp (splitSeps_ne_nil rest)
        | cons a b => exact ⟨a, b, rfl⟩
      rw [splitSeps_cons_of_not c rest n1 n2 n3, hsp] at hf
      rcases List.mem_cons.mp hf with rfl | hf'
      · rcases List.mem_cons.mp hc' with rfl | hcf
        · exact hwc
        · exact ih hrest f1 (hsp ▸ List.mem_cons_self _ _) c' hcf
      · exact ih hrest f (hsp ▸ List.mem_cons_of_mem _ hf') c' hc'

theorem splitCommands_eq_nil_of_sepWsOnly (l : List Char) (h : sepWsOnly l = true) :
    splitCommands l = [] := by
  unfold splitCommands
  rw [List.flatMap_eq_nil_iff]
  intro line hline
  rw [List.filter_eq_nil_iff]
  intro t ht
  obtain ⟨f, hf, rfl⟩ := List.mem_map.mp ht
  have hws : ∀ c ∈ f, isWsChar c = true :=
    sepWsOnly_frags line (sepWsOnly_lines l h line hline) f hf
  have : trimChars f = [] := (trimChars_eq_nil_iff f).mpr hws
  simp [this]

theorem sepWsOnly_of_all_ws (l : List Char) (h : ∀ c ∈ l, isWsChar c = true) :
    sepWsOnly l = true := by
  induction l with
  | nil => rfl
  | cons c rest ih =>
      rw [sepWsOnly_cons_of_ws c rest (h c (List.mem_cons_self _ _))]
      exact ih fun x hx => h x (List.mem_cons_of_mem _ hx)

theorem mem_splitCommands (l : List Char) (c : List Char) (hc : c ∈ splitCommands l) :
    trimChars c = c ∧ c ≠ [] := by
  unfold splitCommands at hc
  obtain ⟨line, _, hmem⟩ := List.mem_flatMap.mp hc
  obtain ⟨hmap, hlen⟩ := List.mem_filter.mp hmem
  obtain ⟨f, _, rfl⟩ := List.mem_map.mp hmap
  refine ⟨trimChars_trimChars f, ?_⟩
  intro hnil
  rw [hnil] at hlen
  simp at hlen

theorem splitCommands_eq_specAlgorithm (l : List Char) :
    splitCommands l = splitCommandsSpec l := by
  unfold splitCommands splitCommandsSpec
  rw [List.flatMap_def]
  apply congrArg List.flatten
  apply List.map_congr_left
  intro line _
  rw [splitSeps_eq_spec]
  apply List.filter_congr
  intro x _
  simp [List.length_pos]

theorem processTerminalExecution_eq (cl : List Char) (ec : Option Int)
    (ctx : Option (List Char)) (flag : Bool) :
    processTerminalExecution cl ec ctx flag =
      if (∀ c ∈ cl, isWsChar c = true) ∨ (flag = true ∧ derivedStatus ec ≠ "success".data)
      then none
      else some ⟨splitCommands cl, ⟨ctx, derivedStatus ec⟩⟩ := by
  unfold processTerminalExecution derivedStatus
  by_cases hws : ∀ c ∈ cl, isWsChar c = true
  · have htrim : (trimChars cl).isEmpty = true :=
      List.isEmpty_iff.mpr ((trimChars_eq_nil_iff cl).mpr hws)
    simp only [htrim, Bool.or_true, if_true]
    rw [if_pos (Or.inl hws)]
  · have htrim : trimChars cl ≠ [] := fun hnil => hws ((trimChars_eq_nil_iff cl).mp hnil)
    have htrim' : (trimChars cl).isEmpty = false := by
      rw [Bool.eq_false_iff]
      intro hemp
      exact htrim (List.isEmpty_iff.mp hemp)
    have hcl : cl.isEmpty = false := by
      rw [Bool.eq_false_iff]
      intro hemp
      rw [List.isEmpty_iff.mp hemp] at hws
      exact hws (by intro c hc; simp at hc)
    by_cases he : ec = some 0
    · simp [hcl, htrim', he, hws, bne]
    · have hbne : (ec != some 0) = true := by
        simp [bne, he]
      by_cases hf : flag
      · simp [hcl, htrim', hf, hbne, hws, he]
      · simp [hcl, htrim', hf, hbne, hws, he]

/-! ### Lemmas about the operation queue model -/

theorem enqueue_ok {ε : Type} (st : QueueState ε) (op : AsyncOp ε) :
    (enqueue st op).queue.ok = true := rfl

theorem foldl_enqueue_sleep (specs : List OpSpec) (st : QueueState Nat)
    (hok : st.queue.ok = true) :
    ((specs.map sleepRecord).foldl enqueue st).log
        = st.log ++ (settleTimes st.queue.t specs).zip (specs.map OpSpec.tag)
    ∧ ((specs.map sleepRecord).foldl enqueue st).queue.ok = true := by
  induction specs generalizing st with
  | nil => exact ⟨by simp [settleTimes], hok⟩
  | cons o os ih =>
      have hstep : enqueue st (sleepRecord o)
          = ⟨⟨st.queue.t + o.dur, true⟩, st.log ++ [(st.queue.t + o.dur, o.tag)]⟩ := by
        simp [enqueue, thenP, catchP, sleepRecord, hok]
      simp only [List.map_cons, List.foldl_cons, hstep]
      obtain ⟨h1, h2⟩ := ih ⟨⟨st.queue.t + o.dur, true⟩,
        st.log ++ [(st.queue.t + o.dur, o.tag)]⟩ rfl
      refine ⟨?_, h2⟩
      rw [h1]
      simp [settleTimes]

theorem settleTimes_le (t : Nat) (specs : List OpSpec) :
    ∀ x ∈ settleTimes t specs, t ≤ x := by
  induction specs generalizing t with
  | nil => simp [settleTimes]
  | cons o os ih =>
      intro x hx
      rcases List.mem_cons.mp hx with rfl | hx'
      · exact Nat.le_add_right _ _
      · exact Nat.le_trans (Nat.le_add_right _ _) (ih (t + o.dur) x hx')

theorem settleTimes_chain (t : Nat) (specs : List OpSpec) :
    List.Chain' (· ≤ ·) (settleTimes t specs) := by
  induction specs generalizing t with
  | nil => simp [settleTimes]
  | cons o os ih =>
      rw [show settleTimes t (o :: os) = (t + o.dur) :: settleTimes (t + o.dur) os from rfl]
      rw [List.chain'_cons']
      exact ⟨fun b hb => settleTimes_le _ _ b (List.mem_of_mem_head? hb), ih (t + o.dur)⟩

theorem settleTimes_length (t : Nat) (specs : List OpSpec) :
    (settleTimes t specs).length = specs.length := by
  induction specs generalizing t with
  | nil => rfl
  | cons o os ih => simp [settleTimes, ih]

theorem le_foldl_max (s0 : Nat) (ts : List Nat) : s0 ≤ ts.foldl max s0 := by
  induction ts generalizing s0 with
  | nil => exact Nat.le_refl _
  | cons a ts ih =>
      exact Nat.le_trans (Nat.le_max_left s0 a) (ih (max s0 a))

theorem mem_le_foldl_max (ts : List Nat) (s0 : Nat) :
    ∀ x ∈ ts, x ≤ ts.foldl max s0 := by
  induction ts generalizing s0 with
  | nil => simp
  | cons a ts ih =>
      intro x hx
      rcases List.mem_cons.mp hx with rfl | hx'
      · exact Nat.le_trans (Nat.le_max_right s0 x) (le_foldl_max (max s0 x) ts)
      · exact ih (max s0 a) x hx'

/-! ### Claim theorems -/

/-- C1: for every sequence of operations enqueued on an `OperationQueue`,
the side effects occur strictly in enqueue order: the log equals the
cumulative settle ticks zipped with the tags in enqueue order, the tags
appear exactly in enqueue order, and the effect ticks are monotone — so
the observed order is the enqueue order regardless of the individual
durations. By construction of `settleTimes`, operation `n+1` starts at
operation `n`'s settle tick. -/
theorem opQueue_ordering (specs : List OpSpec) :
    (runQueueOps specs).log = (settleTimes 0 specs).zip (specs.map OpSpec.tag)
    ∧ (runQueueOps specs).log.map Prod.snd = specs.map OpSpec.tag
    ∧ List.Chain' (· ≤ ·) ((runQueueOps specs).log.map Prod.fst) := by
  have h := foldl_enqueue_sleep specs (initQueue Nat) rfl
  have hlog : (runQueueOps specs).log = (settleTimes 0 specs).zip (specs.map OpSpec.tag) := by
    simpa [runQueueOps, initQueue] using h.1
  have hlen : (settleTimes 0 specs).length ≤ (specs.map OpSpec.tag).length := by
    rw [settleTimes_length, List.length_map]
  refine ⟨hlog, ?_, ?_⟩
  · rw [hlog]
    exact List.map_snd_zip _ _ (by rw [settleTimes_length, List.length_map])
  · rw [hlog, List.map_fst_zip _ _ hlen]
    exact settleTimes_chain 0 specs

/-- C2: a failing operation's rejection is swallowed by the queue — after
any sequence of enqueues the tail promise is fulfilled, and every
single `enqueue` leaves a fulfilled tail — and every operation, including
those enqueued after a failing one, still runs and records its effect. -/
theorem opQueue_fault_isolation (specs : List OpSpec) :
    (runQueueOps specs).queue.ok = true
    ∧ (runQueueOps specs).log.map Prod.snd = specs.map OpSpec.tag
    ∧ ∀ (st : QueueState Nat) (op : AsyncOp Nat), (enqueue st op).queue.ok = true := by
  have h := foldl_enqueue_sleep specs (initQueue Nat) rfl
  have hlog : (runQueueOps specs).log = (settleTimes 0 specs).zip (specs.map OpSpec.tag) := by
    simpa [runQueueOps, initQueue] using h.1
  refine ⟨h.2, ?_, fun st op => enqueue_ok st op⟩
  rw [hlog]
  exact List.map_snd_zip _ _ (by rw [settleTimes_length, List.length_map])

/-- C3: every entry of `splitCommands` is non-empty and carries no leading
or trailing whitespace: it equals its own trimmed form and has positive
length. -/
theorem splitCommands_trimmed_nonempty (l c : List Char) (hc : c ∈ splitCommands l) :
    trimChars c = c ∧ 0 < c.length := by
  obtain ⟨h1, h2⟩ := mem_splitCommands l c hc
  exact ⟨h1, List.length_pos.mpr h2⟩

/-- Witness for C3 at a concrete input. -/
theorem splitCommands_trimmed_nonempty_witness :
    trimChars "a".data = "a".data ∧ 0 < "a".data.length :=
  splitCommands_trimmed_nonempty "  a  ".data "a".data (by decide)

/-- C4: `splitCommands` equals the reference algorithm written from the
spec's words — split on newlines, split each line on every `||`, `&&` or
`;` occurrence, trim, drop empties, concatenate in order — and on
`"a && b; c || d"` it yields `["a","b","c","d"]`. -/
theorem splitCommands_matches_reference :
    (∀ l, splitCommands l = splitCommandsSpec l)
    ∧ splitCommands "a && b; c || d".data = ["a".data, "b".data, "c".data, "d".data] :=
  ⟨splitCommands_eq_specAlgorithm, by decide⟩

/-- C5: `processTerminalExecution` returns `none` exactly when the command
line is empty or entirely whitespace, or the success-only flag is set and
the derived status is not `success`; otherwise it returns the request
carrying `splitCommands commandLine` and `{ context, status }`. -/
theorem processTerminalExecution_skip_iff (cl : List Char) (ec : Option Int)
    (ctx : Option (List Char)) (flag : Bool) :
    processTerminalExecution cl ec ctx flag =
      if (∀ c ∈ cl, isWsChar c = true) ∨ (flag = true ∧ derivedStatus ec ≠ "success".data)
      then none
      else some ⟨splitCommands cl, ⟨ctx, derivedStatus ec⟩⟩ :=
  processTerminalExecution_eq cl ec ctx flag

/-- C6: on every non-skipped input the returned status is `success` iff
the exit code is exactly `0`; every other exit code, including an absent
one, yields `failed`. -/
theorem processTerminalExecution_status (cl : List Char) (ec : Option Int)
    (ctx : Option (List Char)) (flag : Bool) (r : CaptureRequest)
    (h : processTerminalExecution cl ec ctx flag = some r) :
    (r.options.status = "success".data ↔ ec = some 0)
    ∧ (ec ≠ some 0 → r.options.status = "failed".data) := by
  rw [processTerminalExecution_eq] at h
  by_cases hcond :
      (∀ c ∈ cl, isWsChar c = true) ∨ (flag = true ∧ derivedStatus ec ≠ "success".data)
  · rw [if_pos hcond] at h
    exact absurd h (by simp)
  · rw [if_neg hcond] at h
    injection h with h'
    rw [← h']
    unfold derivedStatus
    by_cases he : ec = some 0
    · simp [he]
    · have hne : ("failed".data : List Char) ≠ "success".data := by decide
      rw [if_neg he]
      exact ⟨⟨fun hfs => absurd hfs hne, fun h0 => absurd h0 he⟩, fun _ => rfl⟩

/-- Witness for C6 at a concrete input. -/
theorem processTerminalExecution_status_witness :
    ((CaptureRequest.mk ["cmd".data] ⟨none, "success".data⟩).options.status = "success".data
      ↔ (some 0 : Option Int) = some 0)
    ∧ ((some 0 : Option Int) ≠ some 0 →
      (CaptureRequest.mk ["cmd".data] ⟨none, "success".data⟩).options.status = "failed".data) :=
  processTerminalExecution_status "cmd".data (some 0) none false
    ⟨["cmd".data], ⟨none, "success".data⟩⟩ (by decide)

/-- C7: `captureCommands` fires the client's submission call exactly once
per command, in order (one call event per command, N in total), settles
only once every submission has settled (its settle tick dominates each
submission's settle tick), and always fulfills — no individual submission
failure is propagated. -/
theorem captureCommands_fanout (cl : Client) (cmds : List (List Char))
    (o : CaptureOptions) (s : Nat) :
    (captureCommands cl cmds o s).1.map Prod.snd = cmds.map (fun c => Call.mk c [] o)
    ∧ (captureCommands cl cmds o s).1.length = cmds.length
    ∧ (captureCommands cl cmds o s).2.2 = true
    ∧ (cmds.map (fun c => s + (cl c [] o).dur)).all
        (fun d => d ≤ (captureCommands cl cmds o s).2.1) = true := by
  unfold captureCommands addCommand allSettledP
  refine ⟨?_, ?_, rfl, ?_⟩
  · simp [List.map_map, Function.comp]
  · simp
  · rw [List.all_eq_true]
    intro d hd
    obtain ⟨c, hc, rfl⟩ := List.mem_map.mp hd
    simp only [List.map_map, Function.comp, decide_eq_true_eq]
    have hmem : s + (cl c [] o).dur ∈
        cmds.map (fun c => s + (cl c [] o).dur) := List.mem_map_of_mem _ hc
    have hfold :
        (cmds.map (fun c => s + (cl c [] o).dur)).foldl max s
          = cmds.foldl (fun m c => max m (s + (cl c [] o).dur)) s := List.foldl_map _ _ _ _
    calc s + (cl c [] o).dur
        ≤ (cmds.map (fun c => s + (cl c [] o).dur)).foldl max s :=
          mem_le_foldl_max _ s _ hmem
      _ = _ := by rw [hfold, List.foldl_map]; rfl

/-- C8: `queueCapture` with an absent client handle performs no submission
calls — the log is unchanged — and raises no error: the enqueued operation
resolves and the queue's tail promise is fulfilled. -/
theorem queueCapture_no_client (st : QueueState Call) (result : CaptureRequest) :
    (queueCapture st none result).log = st.log
    ∧ (queueCapture st none result).queue.ok = true := by
  unfold queueCapture enqueue thenP catchP
  cases hq : st.queue.ok <;> simp [hq]

/-- C9: `splitCommands` yields the empty sequence on every input made only
of separator operators and whitespace — in particular on every
all-whitespace input (newlines included), on `""`, on `"   \n\n   "` and
on `"&& || ;"`. -/
theorem splitCommands_degenerate :
    (∀ l, sepWsOnly l = true → splitCommands l = [])
    ∧ (∀ l, (∀ c ∈ l, isWsChar c = true) → splitCommands l = [])
    ∧ splitCommands "".data = []
    ∧ splitCommands "   \n\n   ".data = []
    ∧ splitCommands "&& || ;".data = [] := by
  refine ⟨splitCommands_eq_nil_of_sepWsOnly, ?_, by decide, by decide, by decide⟩
  intro l h
  exact splitCommands_eq_nil_of_sepWsOnly l (sepWsOnly_of_all_ws l h)

/-- Witness for C9 at a concrete input. -/
theorem splitCommands_degenerate_witness :
    sepWsOnly " ; && \n || ".data = true ∧ splitCommands " ; && \n || ".data = [] :=
  ⟨by decide, splitCommands_degenerate.1 " ; && \n || ".data (by decide)⟩

/-- C10: there are command lines that are neither empty nor entirely
whitespace — `";"` and `"&& || ;"` — on which `processTerminalExecution`
with exit code `0` and the success-only flag unset returns a non-null
request whose command list is empty. -/
theorem processTerminalExecution_empty_commands :
    ";".data ≠ ([] : List Char)
    ∧ ¬(∀ c ∈ ";".data, isWsChar c = true)
    ∧ processTerminalExecution ";".data (some 0) none false
        = some ⟨[], ⟨none, "success".data⟩⟩
    ∧ "&& || ;".data ≠ ([] : List Char)
    ∧ ¬(∀ c ∈ "&& || ;".data, isWsChar c = true)
    ∧ processTerminalExecution "&& || ;".data (some 0) none false
        = some ⟨[], ⟨none, "success".data⟩⟩ := by
  decide
